import Mathlib

/-!
# Verification of the document version-lineage resolver

Shallow embedding of `validation.js` (class `DocumentValidator`) from the
`norhill/validate` repository.  The core logic is four pure functions over an
immutable list of document records:

* `compareVersions`   — dotted version-string comparison,
* `getLatestDocumentVersion` — filter a lineage, sort descending, take the head,
* `isLatestVersion`   — compare a record against its lineage's latest,
* `findDocumentByValidationId` — first structural match on `validationId`,
* `validateDocument`  — the orchestrating decision tree.

JavaScript primitives used by the source are modelled as follows.

* `String.prototype.split('.')` is `splitOnDot` over the string's character
  list (same behaviour: the empty string yields one empty segment).
* `Number(s)` followed by the `|| 0` coercion of the source is modelled by
  `jsNumberInt : List Char → Option Int`, where `none` stands for `NaN`.
  The modelled domain is optionally-signed decimal integer numerals with
  surrounding whitespace, and the empty/whitespace-only string (value `0`);
  exotic numeral forms (hex, exponent, `Infinity`) are outside the modelled
  domain and map to `none`/`NaN`.  The resolver reads segment values only
  through `|| 0`, which maps both `NaN` and a missing segment to `0`.
* `new Date(s)` is modelled by `jsDateValue : String → Option Int`, `none`
  standing for an Invalid Date (`NaN` timestamp).  The modelled domain is the
  ISO-8601 calendar-date form `YYYY-MM-DD` (the form the registry uses); the
  value is the order-preserving encoding `y*10000 + m*100 + d`.  The source
  observes dates only through the sign of a difference and through `>=`, so
  any order-isomorphic encoding of the parsed timestamp is observationally
  equivalent to epoch milliseconds.
* `Array.prototype.sort(cmp)` with the ECMAScript-required stable sort is
  modelled by `List.insertionSort` (stable) on the relation `cmp a b ≤ 0`;
  per `SortCompare`, a comparator result of `NaN` is treated as `+0`.
-/

/-- Characters trimmed by `Number`'s string coercion (ASCII whitespace of the
modelled domain). -/
def isWhitespaceChar (c : Char) : Bool :=
  (c == ' ') || (c == '\t') || (c == '\n') || (c == '\r')

/-- Trim leading and trailing whitespace from a character list. -/
def trimChars (l : List Char) : List Char :=
  ((l.dropWhile isWhitespaceChar).reverse.dropWhile isWhitespaceChar).reverse

/-- Numeric value of a decimal digit character. -/
def digitVal (c : Char) : Nat := c.toNat - 48

/-- Value of a list of decimal digit characters, most significant first. -/
def digitsToNat (l : List Char) : Nat :=
  l.foldl (fun n c => n * 10 + digitVal c) 0

/-- Model of JavaScript `Number(s)` on a version segment, `none` = `NaN`.
Empty (after trimming) is `0`; an optional sign followed by decimal digits is
the signed value; anything else is `NaN`. -/
def jsNumberInt (s : List Char) : Option Int :=
  match trimChars s with
  | [] => some 0
  | c :: cs =>
    if c = '-' then
      if cs ≠ [] ∧ cs.all Char.isDigit then some (-(digitsToNat cs : Int)) else none
    else if c = '+' then
      if cs ≠ [] ∧ cs.all Char.isDigit then some ((digitsToNat cs : Int)) else none
    else
      if (c :: cs).all Char.isDigit then some ((digitsToNat (c :: cs) : Int)) else none

/-- `s.split('.')` on the character list: the maximal runs between `'.'`
occurrences, with an empty segment for each empty run (so `[] ↦ [[]]`,
matching JavaScript's `"".split('.') == [""]`). -/
def splitOnDot : List Char → List (List Char)
  | [] => [[]]
  | c :: cs =>
    if c = '.' then [] :: splitOnDot cs
    else
      match splitOnDot cs with
      | [] => [[c]]
      | seg :: rest => (c :: seg) :: rest

/-- `version.split('.').map(Number)` with the source's `|| 0` coercion applied:
a segment that is missing or `NaN` reads as `0`. -/
def versionSegments (v : String) : List Int :=
  (splitOnDot v.data).map (fun seg => (jsNumberInt seg).getD 0)

/-- The tail of the comparison loop once the first segment list is exhausted:
each remaining iteration compares `0` against the next right segment. -/
def cmpZeros : List Int → Int
  | [] => 0
  | b :: bs => if (0 : Int) < b then -1 else if b < 0 then 1 else cmpZeros bs

/-- The comparison loop of `compareVersions`: walk both segment lists in step,
an exhausted list supplying `0` (`v1Parts[i] || 0`), and return the sign of the
first unequal pair, `0` if none. -/
def cmpSegs : List Int → List Int → Int
  | [], bs => cmpZeros bs
  | a :: as, [] => if a < 0 then -1 else if (0 : Int) < a then 1 else cmpSegs as []
  | a :: as, b :: bs => if a < b then -1 else if b < a then 1 else cmpSegs as bs

/-- `DocumentValidator.compareVersions` (validation.js lines 141–156). -/
def compareVersions (version1 version2 : String) : Int :=
  cmpSegs (versionSegments version1) (versionSegments version2)

/-- Model of `new Date(s).getTime()`, `none` = Invalid Date.  Accepts exactly
the ISO calendar-date form `YYYY-MM-DD` with in-range month and day (ISO date
parsing rejects out-of-range fields); the result is the order-preserving
encoding `y*10000 + m*100 + d` of the date. -/
def jsDateValue (s : String) : Option Int :=
  match s.data with
  | [y1, y2, y3, y4, c1, m1, m2, c2, d1, d2] =>
    if c1 = '-' ∧ c2 = '-' ∧ ([y1, y2, y3, y4, m1, m2, d1, d2].all Char.isDigit) then
      let y := digitsToNat [y1, y2, y3, y4]
      let m := digitsToNat [m1, m2]
      let d := digitsToNat [d1, d2]
      let maxDay : Nat :=
        if m = 2 then
          (if y % 4 = 0 ∧ (y % 100 ≠ 0 ∨ y % 400 = 0) then 29 else 28)
        else if m = 4 ∨ m = 6 ∨ m = 9 ∨ m = 11 then 30 else 31
      if 1 ≤ m ∧ m ≤ 12 ∧ 1 ≤ d ∧ d ≤ maxDay then
        some ((y : Int) * 10000 + (m : Int) * 100 + (d : Int))
      else none
    else none
  | _ => none

/-- `new Date(a) >= new Date(b)`: `false` whenever either date is Invalid
(`NaN` compares false). -/
def jsDateGe (a b : String) : Bool :=
  match jsDateValue a, jsDateValue b with
  | some x, some y => decide (x ≥ y)
  | _, _ => false

/-- A document record of `documents.json` (§3 of the data model).  `url` and
`contact` are optional display-only fields. -/
structure DocumentRecord where
  documentId : String
  validationId : String
  version : String
  date : String
  documentName : String
  url : Option String
  contact : Option String
deriving DecidableEq, Repr

/-- `DocumentValidator.findDocumentByValidationId` (validation.js lines
110–112): `this.documents.find(doc => doc.validationId === validationId) || null`.
The argument is `Option String` because `this.validationId` is string-or-null;
strict equality of a string field with `null` is `false`. -/
def findDocumentByValidationId (docs : List DocumentRecord)
    (validationId : Option String) : Option DocumentRecord :=
  docs.find? (fun doc => some doc.validationId == validationId)

/-- The filter `doc => doc.documentId === documentId` of
`getLatestDocumentVersion`: the record's lineage. -/
def lineageOf (docs : List DocumentRecord) (documentId : String) : List DocumentRecord :=
  docs.filter (fun doc => doc.documentId == documentId)

/-- The sort comparator of `getLatestDocumentVersion` (validation.js lines
122–130): descending by version, ties broken by
`new Date(b.date) - new Date(a.date)`; a `NaN` difference reads as `+0`
(ECMAScript `SortCompare`). -/
def documentComparator (a b : DocumentRecord) : Int :=
  let versionCompare := compareVersions a.version b.version
  if versionCompare ≠ 0 then -versionCompare
  else
    match jsDateValue b.date, jsDateValue a.date with
    | some tb, some ta => tb - ta
    | _, _ => 0

/-- The sorted-before relation induced by the comparator: `a` may precede `b`
when `comparator(a, b) ≤ 0`.  A stable sort on this relation is the behaviour
ECMAScript requires of `Array.prototype.sort` with this comparator. -/
def docBefore (a b : DocumentRecord) : Prop := documentComparator a b ≤ 0

instance : DecidableRel docBefore := fun _ _ => Int.decLe _ _

/-- `DocumentValidator.getLatestDocumentVersion` (validation.js lines 119–133):
filter the lineage, stable-sort by the comparator, and return the first
element (`null` when the lineage is empty). -/
def getLatestDocumentVersion (docs : List DocumentRecord)
    (documentId : String) : Option DocumentRecord :=
  (List.insertionSort docBefore (lineageOf docs documentId)).head?

/-- `DocumentValidator.isLatestVersion` (validation.js lines 163–175). -/
def isLatestVersion (docs : List DocumentRecord) (doc : DocumentRecord) : Bool :=
  match getLatestDocumentVersion docs doc.documentId with
  | none => false
  | some latest =>
    let versionCompare := compareVersions doc.version latest.version
    if versionCompare ≠ 0 then decide (versionCompare > 0)
    else jsDateGe doc.date latest.date

/-- The four terminal states of `validateDocument`: the gray "no id" state,
the gray "not found" state, the green valid/latest state, and the red
valid/outdated state (which also displays the lineage's latest record). -/
inductive ValidationState where
  | NoId : ValidationState
  | NotFound : ValidationState
  | Latest : DocumentRecord → ValidationState
  | Outdated : DocumentRecord → Option DocumentRecord → ValidationState
deriving DecidableEq, Repr

/-- JavaScript falsiness of the string-or-null `this.validationId`: `null`
and the empty string are falsy. -/
def jsFalsyId : Option String → Bool
  | none => true
  | some s => s == ""

/-- `DocumentValidator.validateDocument` (validation.js lines 180–205),
with the three `show*State` calls abstracted into the terminal state they
render. -/
def validateDocument (docs : List DocumentRecord)
    (validationId : Option String) : ValidationState :=
  if jsFalsyId validationId then .NoId
  else
    match findDocumentByValidationId docs validationId with
    | none => .NotFound
    | some current =>
      if isLatestVersion docs current then .Latest current
      else .Outdated current (getLatestDocumentVersion docs current.documentId)

/-- One page-load resolution cycle: the rendered terminal state together with
the record set afterwards.  The source never writes to `this.documents` after
loading, so the record component is the input sequence itself. -/
def resolveOnce (docs : List DocumentRecord) (validationId : Option String) :
    ValidationState × List DocumentRecord :=
  (validateDocument docs validationId, docs)

/-! ### Basic properties of the segment-comparison loop -/

theorem cmpZeros_range (b : List Int) :
    cmpZeros b = -1 ∨ cmpZeros b = 0 ∨ cmpZeros b = 1 := by
  induction b with
  | nil => simp [cmpZeros]
  | cons x xs ih => simp only [cmpZeros]; split_ifs <;> simp [ih]

theorem cmpSegs_nil_left (b : List Int) : cmpSegs [] b = cmpZeros b := rfl

theorem cmpSegs_nil_right (b : List Int) : cmpSegs b [] = -cmpZeros b := by
  induction b with
  | nil => rfl
  | cons x xs ih =>
    simp only [cmpSegs, cmpZeros]
    split_ifs <;> omega

theorem cmpSegs_refl (a : List Int) : cmpSegs a a = 0 := by
  induction a with
  | nil => rfl
  | cons x xs ih => simpa [cmpSegs] using ih

theorem cmpSegs_range (a : List Int) : ∀ b,
    cmpSegs a b = -1 ∨ cmpSegs a b = 0 ∨ cmpSegs a b = 1 := by
  induction a with
  | nil => intro b; exact cmpZeros_range b
  | cons x xs ih =>
    intro b
    cases b with
    | nil => simp only [cmpSegs]; split_ifs <;> simp [ih]
    | cons y ys => simp only [cmpSegs]; split_ifs <;> simp [ih]

theorem cmpSegs_antisymm (a : List Int) : ∀ b, cmpSegs a b = -cmpSegs b a := by
  induction a with
  | nil =>
    intro b
    rw [cmpSegs_nil_left, cmpSegs_nil_right]
    omega
  | cons x xs ih =>
    intro b
    cases b with
    | nil => rw [cmpSegs_nil_right, cmpSegs_nil_left]
    | cons y ys =>
      simp only [cmpSegs]
      split_ifs <;> first | omega | simpa using ih ys

theorem cmpSegs_step (a b : List Int) (h : a ≠ [] ∨ b ≠ []) :
    cmpSegs a b =
      if a.headD 0 < b.headD 0 then -1
      else if b.headD 0 < a.headD 0 then 1
      else cmpSegs a.tail b.tail := by
  match a, b with
  | [], [] => simp at h
  | [], y :: bs => simp [cmpSegs, cmpZeros]
  | x :: as, [] => simp [cmpSegs]
  | x :: as, y :: bs => simp [cmpSegs]

theorem cmpSegs_le_trans :
    ∀ a b c : List Int, cmpSegs a b ≤ 0 → cmpSegs b c ≤ 0 → cmpSegs a c ≤ 0 := by
  suffices H : ∀ n (a b c : List Int), a.length + b.length + c.length ≤ n →
      cmpSegs a b ≤ 0 → cmpSegs b c ≤ 0 → cmpSegs a c ≤ 0 from
    fun a b c => H (a.length + b.length + c.length) a b c le_rfl
  intro n
  induction n with
  | zero =>
    intro a b c hlen h1 h2
    have ha : a = [] := List.eq_nil_of_length_eq_zero (by omega)
    have hc : c = [] := List.eq_nil_of_length_eq_zero (by omega)
    subst ha; subst hc
    simp [cmpSegs, cmpZeros]
  | succ n ih =>
    intro a b c hlen h1 h2
    by_cases hab : a = [] ∧ b = []
    · obtain ⟨ha, hb⟩ := hab; subst ha; subst hb; exact h2
    · by_cases hbc : b = [] ∧ c = []
      · obtain ⟨hb, hc⟩ := hbc; subst hb; subst hc; exact h1
      · by_cases hac : a = [] ∧ c = []
        · obtain ⟨ha, hc⟩ := hac; subst ha; subst hc; simp [cmpSegs, cmpZeros]
        · have hne : 0 < a.length ∨ 0 < b.length := by
            rcases not_and_or.mp hab with h | h
            · exact Or.inl (List.length_pos.mpr h)
            · exact Or.inr (List.length_pos.mpr h)
          have hlen2 : a.tail.length + b.tail.length + c.tail.length ≤ n := by
            simp only [List.length_tail]; omega
          rw [cmpSegs_step a b (not_and_or.mp hab)] at h1
          rw [cmpSegs_step b c (not_and_or.mp hbc)] at h2
          rw [cmpSegs_step a c (not_and_or.mp hac)]
          split_ifs at h1 h2 ⊢ <;> first | omega | exact ih _ _ _ hlen2 h1 h2

/-! ### The comparison suite lifted to version strings -/

theorem compareVersions_range (a b : String) :
    compareVersions a b = -1 ∨ compareVersions a b = 0 ∨ compareVersions a b = 1 :=
  cmpSegs_range _ _

theorem compareVersions_refl (a : String) : compareVersions a a = 0 :=
  cmpSegs_refl _

theorem compareVersions_antisymm_eq (a b : String) :
    compareVersions a b = -compareVersions b a :=
  cmpSegs_antisymm _ _

theorem compareVersions_le_trans {a b c : String}
    (h1 : compareVersions a b ≤ 0) (h2 : compareVersions b c ≤ 0) :
    compareVersions a c ≤ 0 :=
  cmpSegs_le_trans _ _ _ h1 h2

theorem compareVersions_ge_trans {a b c : String}
    (h1 : 0 ≤ compareVersions a b) (h2 : 0 ≤ compareVersions b c) :
    0 ≤ compareVersions a c := by
  have hcb : compareVersions c b ≤ 0 := by
    have := compareVersions_antisymm_eq c b; omega
  have hba : compareVersions b a ≤ 0 := by
    have := compareVersions_antisymm_eq b a; omega
  have := compareVersions_le_trans hcb hba
  have := compareVersions_antisymm_eq a c
  omega

theorem compareVersions_zero_trans {a b c : String}
    (h1 : compareVersions a b = 0) (h2 : compareVersions b c = 0) :
    compareVersions a c = 0 := by
  have hle : compareVersions a c ≤ 0 :=
    compareVersions_le_trans (show compareVersions a b ≤ 0 by omega)
      (show compareVersions b c ≤ 0 by omega)
  have hge : 0 ≤ compareVersions a c :=
    compareVersions_ge_trans (show 0 ≤ compareVersions a b by omega)
      (show 0 ≤ compareVersions b c by omega)
  omega

theorem compareVersions_eq_one_left {a b c : String}
    (h1 : compareVersions a b = 1) (h2 : 0 ≤ compareVersions b c) :
    compareVersions a c = 1 := by
  have hcb : compareVersions c b ≤ 0 := by
    have := compareVersions_antisymm_eq c b; omega
  rcases compareVersions_range a c with h | h | h
  · have := compareVersions_le_trans (show compareVersions a c ≤ 0 by omega) hcb
    omega
  · have := compareVersions_le_trans (show compareVersions a c ≤ 0 by omega) hcb
    omega
  · exact h

theorem compareVersions_eq_one_right {a b c : String}
    (h1 : 0 ≤ compareVersions a b) (h2 : compareVersions b c = 1) :
    compareVersions a c = 1 := by
  have hba : compareVersions b a ≤ 0 := by
    have := compareVersions_antisymm_eq b a; omega
  rcases compareVersions_range a c with h | h | h
  · have := compareVersions_le_trans hba (show compareVersions a c ≤ 0 by omega)
    omega
  · have := compareVersions_le_trans hba (show compareVersions a c ≤ 0 by omega)
    omega
  · exact h

/-- **C10.**  `compareVersions` is antisymmetric: for every pair of strings
`a` and `b`, `compareVersions a b = -compareVersions b a`, and in particular
`compareVersions a a = 0` for every string `a`. -/
theorem compareVersions_antisymm :
    (∀ a b : String, compareVersions a b = -compareVersions b a) ∧
    ∀ a : String, compareVersions a a = 0 :=
  ⟨fun _ _ => cmpSegs_antisymm _ _, fun _ => cmpSegs_refl _⟩

/-! ### C1: the spec's description of `compareVersions` -/

/-- The spec's padding step: extend the segment list with zero segments up to
length `n`. -/
def padTo (l : List Int) (n : Nat) : List Int :=
  l ++ List.replicate (n - l.length) 0

/-- The spec's comparison step on two equal-length padded lists: the sign of
the first unequal segment pair, `0` when all pairs are equal. -/
def firstDiffSign : List Int → List Int → Int
  | a :: as, b :: bs => if a = b then firstDiffSign as bs else if a < b then -1 else 1
  | _, _ => 0

/-- Modelled from the spec (§4.1): split on `.`, parse segments as integers
with missing/non-numeric segments treated as `0`, pad the shorter sequence
with zero segments to the longer one's length, compare pairwise from most
significant to least, and return the sign of the first unequal pair, `0`
otherwise. -/
def specCompareVersions (v1 v2 : String) : Int :=
  let p1 := versionSegments v1
  let p2 := versionSegments v2
  let n := max p1.length p2.length
  firstDiffSign (padTo p1 n) (padTo p2 n)

theorem padTo_self (l : List Int) : padTo l l.length = l := by
  simp [padTo]

theorem padTo_nil (n : Nat) : padTo [] n = List.replicate n 0 := by
  simp [padTo]

theorem padTo_cons_succ (a : Int) (l : List Int) (n : Nat) :
    padTo (a :: l) (n + 1) = a :: padTo l n := by
  simp [padTo, List.replicate, Nat.succ_sub_succ]

theorem cmpSegs_firstDiffSign_nil_right (a : List Int) :
    cmpSegs a [] = firstDiffSign a (List.replicate a.length 0) := by
  induction a with
  | nil => rfl
  | cons x xs ih =>
    simp only [cmpSegs, List.length_cons, List.replicate_succ, firstDiffSign]
    split_ifs <;> omega

theorem cmpSegs_firstDiffSign_nil_left (b : List Int) :
    cmpSegs [] b = firstDiffSign (List.replicate b.length 0) b := by
  induction b with
  | nil => rfl
  | cons y ys ih =>
    rw [cmpSegs_nil_left] at ih ⊢
    simp only [cmpZeros, List.length_cons, List.replicate_succ, firstDiffSign]
    split_ifs <;> omega

theorem cmpSegs_eq_firstDiffSign (a : List Int) : ∀ b,
    cmpSegs a b =
      firstDiffSign (padTo a (max a.length b.length)) (padTo b (max a.length b.length)) := by
  induction a with
  | nil =>
    intro b
    rw [List.length_nil, Nat.zero_max, padTo_nil, padTo_self]
    exact cmpSegs_firstDiffSign_nil_left b
  | cons x xs ih =>
    intro b
    cases b with
    | nil =>
      rw [List.length_nil, Nat.max_zero, padTo_nil, padTo_self]
      exact cmpSegs_firstDiffSign_nil_right (x :: xs)
    | cons y ys =>
      have hmax : max (x :: xs).length (y :: ys).length = max xs.length ys.length + 1 := by
        simp only [List.length_cons]; omega
      rw [hmax, padTo_cons_succ, padTo_cons_succ]
      simp only [cmpSegs, firstDiffSign]
      split_ifs <;> first | omega | exact ih ys

/-- **C1.**  `compareVersions` splits each string on `.`, parses each segment
as an integer with missing or non-numeric segments treated as `0`, pads the
shorter segment sequence with zeros, compares pairwise from most significant
to least, and returns the sign of the first unequal pair (`-1` or `1`) or `0`
when all compared segments are equal; in particular
`compareVersions "1.2.0" "1.10.0" = -1` and `compareVersions "1.0" "1.0.0" = 0`,
and no error is raised for malformed input (the function is total with range
contained in the three sentinel values). -/
theorem compareVersions_spec :
    (∀ a b : String, compareVersions a b = specCompareVersions a b) ∧
    (∀ a b : String,
      compareVersions a b = -1 ∨ compareVersions a b = 0 ∨ compareVersions a b = 1) ∧
    compareVersions "1.2.0" "1.10.0" = -1 ∧
    compareVersions "1.0" "1.0.0" = 0 :=
  ⟨fun a b => cmpSegs_eq_firstDiffSign (versionSegments a) (versionSegments b),
   fun a b => compareVersions_range a b, by decide, by decide⟩

/-! ### Properties of the sort comparator -/

theorem documentComparator_antisymm (a b : DocumentRecord) :
    documentComparator b a = -documentComparator a b := by
  have hab := compareVersions_antisymm_eq a.version b.version
  by_cases hv : compareVersions a.version b.version = 0
  · have hv2 : compareVersions b.version a.version = 0 := by omega
    simp only [documentComparator, hv, hv2, ne_eq, not_true_eq_false, if_false,
      not_false_eq_true, ite_false]
    cases jsDateValue a.date <;> cases jsDateValue b.date <;> simp
  · have hv2 : compareVersions b.version a.version ≠ 0 := by omega
    simp only [documentComparator, hv, hv2, ne_eq, not_false_eq_true, if_true, ite_true]
    omega

theorem documentComparator_total {a b : DocumentRecord}
    (h : ¬ documentComparator a b ≤ 0) : documentComparator b a ≤ 0 := by
  have := documentComparator_antisymm a b
  omega

theorem documentComparator_le_version {a b : DocumentRecord}
    (h : documentComparator a b ≤ 0) : 0 ≤ compareVersions a.version b.version := by
  by_cases hv : compareVersions a.version b.version = 0
  · omega
  · simp only [documentComparator, hv, ne_eq, not_false_eq_true, if_true, ite_true] at h
    omega

/-- The head of the stable sort is a member with maximal version: the key
correctness fact about `getLatestDocumentVersion`, provable for arbitrary
record lists (even when some `date` fields fail to parse, in which case the
date tie-break degenerates but versions still govern the head). -/
theorem insertionSort_head_version_max (docs : List DocumentRecord) :
    ∀ h t, List.insertionSort docBefore docs = h :: t →
      h ∈ docs ∧ ∀ x ∈ docs, 0 ≤ compareVersions h.version x.version := by
  induction docs with
  | nil => intro h t hst; simp [List.insertionSort] at hst
  | cons d l ih =>
    intro h t hst
    rw [List.insertionSort] at hst
    cases hsl : List.insertionSort docBefore l with
    | nil =>
      rw [hsl] at hst
      have hl : l = [] := by
        have hlen := List.length_insertionSort docBefore l
        rw [hsl] at hlen
        exact List.eq_nil_of_length_eq_zero hlen.symm
      simp only [List.orderedInsert] at hst
      injection hst with hh ht
      subst hh
      subst hl
      exact ⟨List.mem_cons_self _ _, by
        intro x hx
        rcases List.mem_cons.mp hx with rfl | hx
        · rw [compareVersions_refl]
        · simp at hx⟩
    | cons h2 t2 =>
      rw [hsl] at hst
      obtain ⟨hmem2, hmax2⟩ := ih h2 t2 hsl
      rw [List.orderedInsert] at hst
      by_cases hc : docBefore d h2
      · rw [if_pos hc] at hst
        injection hst with hh ht
        subst hh
        refine ⟨List.mem_cons_self _ _, ?_⟩
        intro x hx
        rcases List.mem_cons.mp hx with rfl | hx
        · rw [compareVersions_refl]
        · exact compareVersions_ge_trans (documentComparator_le_version hc) (hmax2 x hx)
      · rw [if_neg hc] at hst
        injection hst with hh ht
        subst hh
        refine ⟨List.mem_cons_of_mem _ hmem2, ?_⟩
        intro x hx
        rcases List.mem_cons.mp hx with rfl | hx
        · exact documentComparator_le_version (documentComparator_total hc)
        · exact hmax2 x hx

/-- **C2.**  `getLatestDocumentVersion` returns `none` exactly when no record
has the given `documentId`, and otherwise returns a member of that lineage
whose version is greater than or equal to every lineage member's version
under `compareVersions`. -/
theorem getLatestDocumentVersion_spec (docs : List DocumentRecord) (documentId : String) :
    (getLatestDocumentVersion docs documentId = none ↔
      ∀ r ∈ docs, r.documentId ≠ documentId) ∧
    ∀ r, getLatestDocumentVersion docs documentId = some r →
      (r ∈ docs ∧ r.documentId = documentId) ∧
      ∀ x ∈ docs, x.documentId = documentId → 0 ≤ compareVersions r.version x.version := by
  constructor
  · rw [getLatestDocumentVersion, List.head?_eq_none_iff]
    constructor
    · intro hemp r hr hid
      have hlin : lineageOf docs documentId = [] := by
        have hlen := List.length_insertionSort docBefore (lineageOf docs documentId)
        rw [hemp] at hlen
        exact List.eq_nil_of_length_eq_zero hlen.symm
      have : r ∈ lineageOf docs documentId :=
        List.mem_filter.mpr ⟨hr, by simp [hid]⟩
      rw [hlin] at this
      simp at this
    · intro hall
      have hlin : lineageOf docs documentId = [] := by
        rw [lineageOf, List.filter_eq_nil_iff]
        intro a ha
        simpa using hall a ha
      rw [hlin]
      rfl
  · intro r hr
    rw [getLatestDocumentVersion] at hr
    cases hsl : List.insertionSort docBefore (lineageOf docs documentId) with
    | nil => rw [hsl] at hr; simp at hr
    | cons h t =>
      rw [hsl] at hr
      simp only [List.head?_cons, Option.some.injEq] at hr
      subst hr
      obtain ⟨hmem, hmax⟩ := insertionSort_head_version_max _ _ _ hsl
      obtain ⟨hrd, hrid⟩ := List.mem_filter.mp hmem
      refine ⟨⟨hrd, by simpa using hrid⟩, ?_⟩
      intro x hx hxid
      exact hmax x (List.mem_filter.mpr ⟨hx, by simp [hxid]⟩)

/-! ### The end-to-end example registry of spec §8 -/

/-- Record `A` of the end-to-end example: lineage `D1`, version `1.0.0`. -/
def exampleA : DocumentRecord :=
  ⟨"D1", "A", "1.0.0", "2024-01-01", "Example Document", none, none⟩

/-- Record `B` of the end-to-end example: lineage `D1`, version `2.0.0`. -/
def exampleB : DocumentRecord :=
  ⟨"D1", "B", "2.0.0", "2024-02-01", "Example Document", none, none⟩

/-- The two-record registry of the end-to-end example. -/
def exampleDocs : List DocumentRecord := [exampleA, exampleB]

theorem getLatestDocumentVersion_spec_witness :
    getLatestDocumentVersion exampleDocs "D1" = some exampleB ∧
    (exampleB ∈ exampleDocs ∧ exampleB.documentId = "D1") ∧
    0 ≤ compareVersions exampleB.version exampleA.version :=
  ⟨by decide,
   ((getLatestDocumentVersion_spec exampleDocs "D1").2 exampleB (by decide)).1,
   ((getLatestDocumentVersion_spec exampleDocs "D1").2 exampleB (by decide)).2
     exampleA (by decide) (by decide)⟩

/-- **C3.**  For a record whose lineage is non-empty (equivalently, whose
lineage lookup yields `some latest`), `isLatestVersion` is `true` iff the
record's version is strictly greater than the latest's under
`compareVersions`, or the versions compare equal and the record's date
(parsed as a timestamp) is greater than or equal to the latest's date; in
particular equal version with equal (parseable) date yields `true`. -/
theorem isLatestVersion_spec (docs : List DocumentRecord) (r latest : DocumentRecord)
    (hl : getLatestDocumentVersion docs r.documentId = some latest) :
    (isLatestVersion docs r = true ↔
      (0 < compareVersions r.version latest.version ∨
        (compareVersions r.version latest.version = 0 ∧
          jsDateGe r.date latest.date = true))) ∧
    (compareVersions r.version latest.version = 0 → r.date = latest.date →
      (jsDateValue r.date).isSome → isLatestVersion docs r = true) := by
  constructor
  · rcases compareVersions_range r.version latest.version with h | h | h
    · simp [isLatestVersion, hl, h]
    · simp [isLatestVersion, hl, h]
    · simp [isLatestVersion, hl, h]
  · intro hv hdate hsome
    obtain ⟨t, ht⟩ := Option.isSome_iff_exists.mp hsome
    simp [isLatestVersion, hl, hv, jsDateGe, ← hdate, ht]

theorem isLatestVersion_spec_witness :
    isLatestVersion exampleDocs exampleB = true :=
  (isLatestVersion_spec exampleDocs exampleB exampleB (by decide)).2
    (by decide) rfl (by decide)

/-- **C4.**  The resolution flow is the deterministic decision tree: an
absent or empty query id yields `NoId`; otherwise a failed lookup yields
`NotFound`; otherwise `Latest` when `isLatestVersion` holds, else `Outdated`
with the lineage's latest; and on the two-record example registry the four
query outcomes are exactly those of spec §8. -/
theorem validateDocument_spec :
    (∀ (docs : List DocumentRecord) (q : Option String),
      (jsFalsyId q = true → validateDocument docs q = .NoId) ∧
      (jsFalsyId q = false → findDocumentByValidationId docs q = none →
        validateDocument docs q = .NotFound) ∧
      (∀ r, jsFalsyId q = false → findDocumentByValidationId docs q = some r →
        isLatestVersion docs r = true → validateDocument docs q = .Latest r) ∧
      (∀ r, jsFalsyId q = false → findDocumentByValidationId docs q = some r →
        isLatestVersion docs r = false →
        validateDocument docs q =
          .Outdated r (getLatestDocumentVersion docs r.documentId))) ∧
    validateDocument exampleDocs (some "A") = .Outdated exampleA (some exampleB) ∧
    validateDocument exampleDocs (some "B") = .Latest exampleB ∧
    validateDocument exampleDocs (some "Z") = .NotFound ∧
    validateDocument exampleDocs none = .NoId := by
  refine ⟨fun docs q => ⟨?_, ?_, ?_, ?_⟩, by decide, by decide, by decide, by decide⟩
  · intro hq; simp [validateDocument, hq]
  · intro hq hf; simp [validateDocument, hq, hf]
  · intro r hq hf hl; simp [validateDocument, hq, hf, hl]
  · intro r hq hf hl; simp [validateDocument, hq, hf, hl]

theorem validateDocument_spec_witness :
    validateDocument exampleDocs (some "A") =
      .Outdated exampleA (getLatestDocumentVersion exampleDocs exampleA.documentId) :=
  (validateDocument_spec.1 exampleDocs (some "A")).2.2.2 exampleA
    (by decide) (by decide) (by decide)

/-- **C8.**  For a record that is a member of the record sequence, the `none`
branch of `isLatestVersion` is unreachable (`getLatestDocumentVersion` of the
record's `documentId` is some); and if that branch is nevertheless reached
(record not in the sequence), `isLatestVersion` returns `false` rather than
raising an error. -/
theorem isLatestVersion_none_branch (docs : List DocumentRecord) (r : DocumentRecord) :
    (r ∈ docs → (getLatestDocumentVersion docs r.documentId).isSome = true) ∧
    (getLatestDocumentVersion docs r.documentId = none → isLatestVersion docs r = false) := by
  constructor
  · intro hmem
    have hr : r ∈ lineageOf docs r.documentId := List.mem_filter.mpr ⟨hmem, by simp⟩
    rw [getLatestDocumentVersion]
    cases hsl : List.insertionSort docBefore (lineageOf docs r.documentId) with
    | nil =>
      exfalso
      have hlen := List.length_insertionSort docBefore (lineageOf docs r.documentId)
      rw [hsl] at hlen
      have hnil := List.eq_nil_of_length_eq_zero hlen.symm
      rw [hnil] at hr
      simp at hr
    | cons h t => rfl
  · intro hg
    simp [isLatestVersion, hg]

theorem isLatestVersion_none_branch_witness :
    (getLatestDocumentVersion exampleDocs exampleA.documentId).isSome = true ∧
    isLatestVersion [] exampleA = false :=
  ⟨(isLatestVersion_none_branch exampleDocs exampleA).1 (by decide),
   (isLatestVersion_none_branch [] exampleA).2 (by decide)⟩

/-! ### C5: the date tie-break -/

/-- **C5.**  In a lineage of exactly two records whose versions compare equal
but whose (parseable) dates differ, `getLatestDocumentVersion` returns the
record with the later date. -/
theorem getLatest_tiebreak (docs : List DocumentRecord) (documentId : String)
    (r1 r2 : DocumentRecord) (t1 t2 : Int)
    (hlin : lineageOf docs documentId = [r1, r2])
    (hv : compareVersions r1.version r2.version = 0)
    (h1 : jsDateValue r1.date = some t1) (h2 : jsDateValue r2.date = some t2) :
    (t1 < t2 → getLatestDocumentVersion docs documentId = some r2) ∧
    (t2 < t1 → getLatestDocumentVersion docs documentId = some r1) := by
  have hc : documentComparator r1 r2 = t2 - t1 := by
    simp [documentComparator, hv, h1, h2]
  have hsort : List.insertionSort docBefore [r1, r2] =
      if documentComparator r1 r2 ≤ 0 then [r1, r2] else [r2, r1] := by
    simp only [List.insertionSort, List.orderedInsert, docBefore]
  rw [getLatestDocumentVersion, hlin, hsort]
  constructor
  · intro hlt
    rw [if_neg (show ¬documentComparator r1 r2 ≤ 0 by omega)]
    rfl
  · intro hlt
    rw [if_pos (show documentComparator r1 r2 ≤ 0 by omega)]
    rfl

/-- First record of the tie-break witness lineage (earlier date). -/
def tieEarlier : DocumentRecord :=
  ⟨"D2", "TA", "1.0.0", "2024-01-01", "Tie Example", none, none⟩

/-- Second record of the tie-break witness lineage (later date, same version). -/
def tieLater : DocumentRecord :=
  ⟨"D2", "TB", "1.0.0", "2024-03-05", "Tie Example", none, none⟩

theorem getLatest_tiebreak_witness :
    getLatestDocumentVersion [tieEarlier, tieLater] "D2" = some tieLater :=
  (getLatest_tiebreak [tieEarlier, tieLater] "D2" tieEarlier tieLater
    20240101 20240305 (by decide) (by decide) (by decide) (by decide)).1 (by decide)

/-! ### C7: the lookup layer -/

/-- A record whose `validationId` is the empty string: the `validationId`
field is only documented as a string, so this registry is well-formed. -/
def emptyIdRecord : DocumentRecord :=
  ⟨"D1", "", "1.0.0", "2024-01-01", "Empty Id Record", none, none⟩

/-- **C7 counterexample.**  The claim states that the lookup returns `None`
whenever the id is empty; but the source's `find` compares the empty id
structurally like any other string, so a record whose `validationId` is the
empty string is returned. -/
theorem findDocumentByValidationId_empty_id_counterexample :
    findDocumentByValidationId [emptyIdRecord] (some "") = some emptyIdRecord ∧
    findDocumentByValidationId [emptyIdRecord] (some "") ≠ none := by
  decide

/-- Modelled from the spec's words for the amended claim: the reference
linear scan returning the first record whose `validationId` structurally
equals the given id. -/
def firstMatchSpec (validationId : Option String) :
    List DocumentRecord → Option DocumentRecord
  | [] => none
  | r :: rest =>
    if some r.validationId = validationId then some r else firstMatchSpec validationId rest

/-- **C7 (amended).**  `findDocumentByValidationId` performs a linear scan
and returns the first record whose `validationId` structurally equals the
given id; it returns `none` when no record matches, and in particular always
returns `none` when the id is `none` (absent).  An empty-string id is matched
structurally like any other string rather than being rejected. -/
theorem findDocumentByValidationId_spec_amended (docs : List DocumentRecord) :
    (∀ validationId,
      findDocumentByValidationId docs validationId = firstMatchSpec validationId docs) ∧
    findDocumentByValidationId docs none = none ∧
    ∀ validationId, (findDocumentByValidationId docs validationId = none ↔
      ∀ r ∈ docs, some r.validationId ≠ validationId) := by
  refine ⟨?_, ?_, ?_⟩
  · intro validationId
    induction docs with
    | nil => rfl
    | cons d l ih =>
      by_cases h : some d.validationId = validationId
      · rw [findDocumentByValidationId, List.find?_cons_of_pos _ (by simpa using h)]
        rw [firstMatchSpec, if_pos h]
      · rw [findDocumentByValidationId, List.find?_cons_of_neg _ (by simpa using h)]
        rw [firstMatchSpec, if_neg h]
        exact ih
  · rw [findDocumentByValidationId, List.find?_eq_none]
    intro x hx
    simp
  · intro validationId
    rw [findDocumentByValidationId, List.find?_eq_none]
    simp

/-! ### C9: determinism of resolution -/

/-- **C9.**  Resolution is deterministic and mutation-free: running the
resolution flow again on the record sequence left by a first run, with the
same query id, produces the identical terminal state, and the record
sequence is unchanged by resolution.  (Every resolver function of the
embedding is a pure function of its explicit inputs, as in the source, which
never writes to `this.documents` after loading.) -/
theorem resolve_idempotent (docs : List DocumentRecord) (q : Option String) :
    resolveOnce ((resolveOnce docs q).2) q = resolveOnce docs q ∧
    (resolveOnce docs q).2 = docs :=
  ⟨rfl, rfl⟩

/-! ### C6: the unique maximum of a lineage -/

/-- The strict order the spec sorts a lineage by: strictly smaller version
under `compareVersions`, or equal version and strictly earlier date (both
dates parsing as timestamps). -/
def recLT (a b : DocumentRecord) : Prop :=
  compareVersions a.version b.version = -1 ∨
    (compareVersions a.version b.version = 0 ∧
      ∃ ta tb, jsDateValue a.date = some ta ∧ jsDateValue b.date = some tb ∧ ta < tb)

theorem docBefore_iff {a b : DocumentRecord} {ta tb : Int}
    (hta : jsDateValue a.date = some ta) (htb : jsDateValue b.date = some tb) :
    docBefore a b ↔ (compareVersions a.version b.version = 1 ∨
      (compareVersions a.version b.version = 0 ∧ tb ≤ ta)) := by
  unfold docBefore documentComparator
  rcases compareVersions_range a.version b.version with h0 | h0 | h0
  · simp [h0]
  · simp [h0, hta, htb]
  · simp [h0]

theorem docBefore_trans_of_dates {a b c : DocumentRecord} {ta tb tc : Int}
    (hta : jsDateValue a.date = some ta) (htb : jsDateValue b.date = some tb)
    (htc : jsDateValue c.date = some tc)
    (h1 : docBefore a b) (h2 : docBefore b c) : docBefore a c := by
  rw [docBefore_iff hta htb] at h1
  rw [docBefore_iff htb htc] at h2
  rw [docBefore_iff hta htc]
  rcases h1 with h1 | ⟨h1, hd1⟩ <;> rcases h2 with h2 | ⟨h2, hd2⟩
  · exact Or.inl (compareVersions_eq_one_left h1 (by omega))
  · exact Or.inl (compareVersions_eq_one_left h1 (by omega))
  · exact Or.inl (compareVersions_eq_one_right (by omega) h2)
  · exact Or.inr ⟨compareVersions_zero_trans h1 h2, by omega⟩

/-- Insertion preserves sortedness when the relation is transitive on the
elements involved (the comparator is only locally transitive: records with
unparseable dates break global transitivity). -/
theorem pairwise_orderedInsert_local (x : DocumentRecord) (l : List DocumentRecord)
    (htrans : ∀ a b c, a ∈ x :: l → b ∈ x :: l → c ∈ x :: l →
      docBefore a b → docBefore b c → docBefore a c)
    (hsorted : l.Pairwise docBefore) :
    (List.orderedInsert docBefore x l).Pairwise docBefore := by
  induction l with
  | nil => simp
  | cons b t ih =>
    rw [List.orderedInsert]
    by_cases hc : docBefore x b
    · rw [if_pos hc]
      refine List.Pairwise.cons ?_ hsorted
      intro z hz
      rcases List.mem_cons.mp hz with rfl | hz
      · exact hc
      · have hbz : docBefore b z := (List.pairwise_cons.mp hsorted).1 z hz
        exact htrans x b z (by simp) (by simp) (by simp [hz]) hc hbz
    · rw [if_neg hc]
      have hsorted_t : t.Pairwise docBefore := (List.pairwise_cons.mp hsorted).2
      have hbt : ∀ z ∈ t, docBefore b z := (List.pairwise_cons.mp hsorted).1
      have hsub : ∀ z, z ∈ x :: t → z ∈ x :: b :: t := by
        intro z hz
        rcases List.mem_cons.mp hz with rfl | hz
        · simp
        · simp [hz]
      refine List.Pairwise.cons ?_
        (ih (fun a b2 c ha hb2 hc2 g1 g2 =>
          htrans a b2 c (hsub a ha) (hsub b2 hb2) (hsub c hc2) g1 g2) hsorted_t)
      intro z hz
      have hz2 : z = x ∨ z ∈ t := by
        have := (List.perm_orderedInsert docBefore x t).mem_iff.mp hz
        simpa using this
      rcases hz2 with rfl | hz2
      · exact documentComparator_total hc
      · exact hbt z hz2

/-- The stable sort is sorted whenever the comparator is transitive on the
list's members. -/
theorem pairwise_insertionSort_local (l : List DocumentRecord)
    (htrans : ∀ a b c, a ∈ l → b ∈ l → c ∈ l →
      docBefore a b → docBefore b c → docBefore a c) :
    (List.insertionSort docBefore l).Pairwise docBefore := by
  induction l with
  | nil => simp
  | cons x t ih =>
    rw [List.insertionSort]
    have hsub : ∀ z, z ∈ x :: List.insertionSort docBefore t → z ∈ x :: t := by
      intro z hz
      rcases List.mem_cons.mp hz with rfl | hz
      · simp
      · simp [(List.mem_insertionSort docBefore).mp hz]
    apply pairwise_orderedInsert_local
    · intro a b c ha hb hc h1 h2
      exact htrans a b c (hsub a ha) (hsub b hb) (hsub c hc) h1 h2
    · exact ih (fun a b c ha hb hc h1 h2 =>
        htrans a b c (List.mem_cons_of_mem _ ha) (List.mem_cons_of_mem _ hb)
          (List.mem_cons_of_mem _ hc) h1 h2)

/-- When every lineage member is strictly below `m` (versions, then dates)
and all lineage dates parse, the sort's head is `m` itself. -/
theorem getLatest_eq_max (docs : List DocumentRecord) (d : String) (m : DocumentRecord)
    (hm : m ∈ lineageOf docs d)
    (hdates : ∀ x ∈ lineageOf docs d, (jsDateValue x.date).isSome = true)
    (hmax : ∀ x ∈ lineageOf docs d, x ≠ m → recLT x m) :
    getLatestDocumentVersion docs d = some m := by
  cases hsl : List.insertionSort docBefore (lineageOf docs d) with
  | nil =>
    exfalso
    have hlen := List.length_insertionSort docBefore (lineageOf docs d)
    rw [hsl] at hlen
    have hnil := List.eq_nil_of_length_eq_zero hlen.symm
    rw [hnil] at hm
    simp at hm
  | cons h t =>
    rw [getLatestDocumentVersion, hsl]
    have hperm := List.perm_insertionSort docBefore (lineageOf docs d)
    rw [hsl] at hperm
    have hmem : h ∈ lineageOf docs d := hperm.mem_iff.mp (by simp)
    have hpair : (h :: t).Pairwise docBefore := by
      rw [← hsl]
      apply pairwise_insertionSort_local
      intro a b c ha hb hc h1 h2
      obtain ⟨ta, hta⟩ := Option.isSome_iff_exists.mp (hdates a ha)
      obtain ⟨tb, htb⟩ := Option.isSome_iff_exists.mp (hdates b hb)
      obtain ⟨tc, htc⟩ := Option.isSome_iff_exists.mp (hdates c hc)
      exact docBefore_trans_of_dates hta htb htc h1 h2
    by_cases heq : h = m
    · simp [heq]
    · exfalso
      have hlt := hmax h hmem heq
      have hm2 : m ∈ h :: t := hperm.mem_iff.mpr hm
      rcases List.mem_cons.mp hm2 with rfl | hm3
      · exact heq rfl
      · have hbm : docBefore h m := (List.pairwise_cons.mp hpair).1 m hm3
        obtain ⟨th, hth⟩ := Option.isSome_iff_exists.mp (hdates h hmem)
        obtain ⟨tm, htm⟩ := Option.isSome_iff_exists.mp (hdates m hm)
        rw [docBefore_iff hth htm] at hbm
        rcases hlt with hlt | ⟨hlt, ta2, tb2, hta2, htb2, hlt2⟩
        · rcases hbm with hbm | ⟨hbm, _⟩ <;> omega
        · rw [hth] at hta2
          rw [htm] at htb2
          have hea : th = ta2 := Option.some.inj hta2
          have heb : tm = tb2 := Option.some.inj htb2
          rcases hbm with hbm | ⟨hbm, hle⟩ <;> omega

/-- **C6.**  For a lineage with a unique maximal record `m` under the order
(version by `compareVersions`, then parsed date) — i.e. every other lineage
member is strictly smaller than `m` — `isLatestVersion` returns `true` for
`m` and `false` for every lineage member strictly smaller than `m`.  The
hypothesis that lineage dates parse reflects the data model's invariant that
`date` is an ISO-8601 timestamp string. -/
theorem isLatest_unique_max (docs : List DocumentRecord) (d : String) (m : DocumentRecord)
    (hm : m ∈ lineageOf docs d)
    (hdates : ∀ x ∈ lineageOf docs d, (jsDateValue x.date).isSome = true)
    (hmax : ∀ x ∈ lineageOf docs d, x ≠ m → recLT x m) :
    isLatestVersion docs m = true ∧
    ∀ x ∈ lineageOf docs d, recLT x m → isLatestVersion docs x = false := by
  have hlatest := getLatest_eq_max docs d m hm hdates hmax
  have hmd : m.documentId = d := by simpa using (List.mem_filter.mp hm).2
  constructor
  · have hg : getLatestDocumentVersion docs m.documentId = some m := by
      rw [hmd]; exact hlatest
    obtain ⟨tm, htm⟩ := Option.isSome_iff_exists.mp (hdates m hm)
    simp [isLatestVersion, hg, compareVersions_refl, jsDateGe, htm]
  · intro x hx hlt
    have hxd : x.documentId = d := by simpa using (List.mem_filter.mp hx).2
    have hg : getLatestDocumentVersion docs x.documentId = some m := by
      rw [hxd]; exact hlatest
    rcases hlt with hv | ⟨hv, ta, tb, hta, htb, hab⟩
    · simp [isLatestVersion, hg, hv]
    · simp [isLatestVersion, hg, hv, jsDateGe, hta, htb]
      omega

theorem isLatest_unique_max_witness :
    isLatestVersion exampleDocs exampleB = true ∧
    isLatestVersion exampleDocs exampleA = false := by
  have hlin : lineageOf exampleDocs "D1" = [exampleA, exampleB] := by decide
  have h := isLatest_unique_max exampleDocs "D1" exampleB (by decide) (by decide) ?hmax
  · exact ⟨h.1, h.2 exampleA (by decide) (Or.inl (by decide))⟩
  case hmax =>
    intro x hx hne
    rw [hlin] at hx
    have hx2 : x = exampleA ∨ x = exampleB := by simpa using hx
    rcases hx2 with rfl | rfl
    · exact Or.inl (by decide)
    · exact absurd rfl hne
